import Mathlib

/-!
Verification of the transcript chunking and chapter-boundary detection
algorithms of the Lecture-to-Notes application (`app.py`).

The two functions under study are `chunk_segments` (merging timestamped
transcription segments into bounded-size text chunks) and
`chapter_detection` (grouping consecutive chunks into chapters by
adjacent cosine-similarity discontinuity).

Modelling choices, all taken from the source:
* Python strings are `List Char`; `str.split()` and `str.strip()` are
  `pySplit` and `pyStrip` over the Python whitespace character class.
* Python floats carried in `seg["start"]`, `seg["end"]` are modelled as
  `ℚ`; since the loop variables `start`, `end` of `chunk_segments` are
  initialised to `None` and a chunk can be emitted while `end` is still
  `None`, every time value in the model is an `Option ℚ` (`none` is
  Python's `None`).
* The external sentence-embedding model and `util.cos_sim` are opaque
  parameters (`encode`, `cosSim`); similarity scores are compared as
  exact rationals, mirroring the plain `<` float comparison against the
  literal `0.65 = 13/20`.
* `chapter_detection` indexes `chunks[0]`, which raises on an empty
  list; the fallible function is modelled with `Option`, `none` being
  the failure outcome.
-/

/-! ## Definitions -/

/-- The Python whitespace class used by `str.split()` / `str.strip()`:
space, tab, newline, carriage return, vertical tab, form feed. -/
def isSpc (c : Char) : Bool :=
  c.toNat == 32 || c.toNat == 9 || c.toNat == 10 || c.toNat == 13 ||
  c.toNat == 11 || c.toNat == 12

/-- The space character, used by `current += " " + seg["text"]`. -/
def spaceChar : Char := Char.ofNat 32

/-- Python `str.split()` with no separator: split on runs of whitespace,
discarding empty pieces. -/
def pySplit : List Char → List (List Char)
  | [] => []
  | [c] => if isSpc c then [] else [[c]]
  | c :: c2 :: cs =>
    if isSpc c then pySplit (c2 :: cs)
    else if isSpc c2 then [c] :: pySplit (c2 :: cs)
    else
      match pySplit (c2 :: cs) with
      | [] => [[c]]
      | w :: ws => (c :: w) :: ws

/-- Python `str.strip()`: drop leading and trailing whitespace. -/
def pyStrip (s : List Char) : List Char :=
  ((s.dropWhile isSpc).reverse.dropWhile isSpc).reverse

/-- A transcription segment: `seg["text"]`, `seg["start"]`, `seg["end"]`. -/
structure Segment where
  text : List Char
  start : Option ℚ
  «end» : Option ℚ
deriving DecidableEq, Repr

/-- A chunk tuple `(start, end, current.strip())` as built by
`chunk_segments`. -/
structure Chunk where
  start : Option ℚ
  «end» : Option ℚ
  text : List Char
deriving DecidableEq, Repr

/-- The mutable state of the `chunk_segments` loop: the output list
`chunks` and the accumulator variables `current`, `start`, `end`. -/
structure ChunkState where
  chunks : List Chunk
  current : List Char
  start : Option ℚ
  «end» : Option ℚ
deriving DecidableEq, Repr

/-- One iteration of the `for seg in segments` loop of `chunk_segments`:

    words = seg["text"].split()
    if start is None:
        start = seg["start"]
    if len(current.split()) + len(words) <= max_words:
        current += " " + seg["text"]
        end = seg["end"]
    else:
        chunks.append((start, end, current.strip()))
        current = seg["text"]
        start, end = seg["start"], seg["end"]
-/
def chunkStep (maxWords : ℕ) (st : ChunkState) (seg : Segment) : ChunkState :=
  let start1 := if st.start.isNone then seg.start else st.start
  if (pySplit st.current).length + (pySplit seg.text).length ≤ maxWords then
    { chunks := st.chunks, current := st.current ++ spaceChar :: seg.text,
      start := start1, «end» := seg.«end» }
  else
    { chunks := st.chunks ++ [⟨start1, st.«end», pyStrip st.current⟩],
      current := seg.text, start := seg.start, «end» := seg.«end» }

/-- The `for` loop of `chunk_segments`, threading the state. -/
def chunkLoop (maxWords : ℕ) (st : ChunkState) : List Segment → ChunkState
  | [] => st
  | seg :: rest => chunkLoop maxWords (chunkStep maxWords st seg) rest

/-- The epilogue of `chunk_segments`:

    if current:
        chunks.append((start, end, current.strip()))
-/
def finalizeChunks (st : ChunkState) : List Chunk :=
  if st.current = [] then st.chunks
  else st.chunks ++ [⟨st.start, st.«end», pyStrip st.current⟩]

/-- `chunk_segments(segments, max_words)` from `app.py`. -/
def chunk_segments (segments : List Segment) (maxWords : ℕ) : List Chunk :=
  finalizeChunks (chunkLoop maxWords ⟨[], [], none, none⟩ segments)

/-- Reading a chunk back as a segment (its text and time range), used to
state re-chunking stability. -/
def toSegment (c : Chunk) : Segment := ⟨c.text, c.start, c.«end»⟩

/-- One iteration of the chapter loop of `chapter_detection`, acting on
the pair `(chunks[i-1], chunks[i])`:

    sim = util.cos_sim(embeds[i-1], embeds[i])
    if sim < 0.65:
        chapters.append([chunks[i]])
    else:
        chapters[-1].append(chunks[i])
-/
def chapterStep {V : Type} (encode : List Char → V) (cosSim : V → V → ℚ)
    (chapters : List (List Chunk)) (pr : Chunk × Chunk) : List (List Chunk) :=
  if cosSim (encode pr.1.text) (encode pr.2.text) < 13/20 then
    chapters ++ [[pr.2]]
  else
    chapters.dropLast ++ [chapters.getLastD [] ++ [pr.2]]

/-- `chapter_detection(chunks)` from `app.py`.  `embeds[i] =
encode(chunks[i].text)`; the loop over `range(1, len(chunks))` is a fold
over the adjacent pairs, starting from `chapters = [[chunks[0]]]`;
`chunks[0]` raises on an empty list (`none`). -/
def chapter_detection {V : Type} (encode : List Char → V)
    (cosSim : V → V → ℚ) : List Chunk → Option (List (List Chunk))
  | [] => none
  | c :: rest =>
    some (((c :: rest).zip rest).foldl (chapterStep encode cosSim) [[c]])

/-- Number of `util.cos_sim` calls performed by `chapter_detection`:
one per iteration of `range(1, len(chunks))`. -/
def simComparisons (chunks : List Chunk) : ℕ :=
  match chunks with
  | [] => 0
  | c :: rest => ((c :: rest).zip rest).length

/-- `end <= start` on optional times: defined and ordered.  A Python
comparison `None <= float` would itself raise, so the claimed
inequality presupposes both values are present. -/
def leOpt (x y : Option ℚ) : Bool :=
  match x, y with
  | some a, some b => decide (a ≤ b)
  | _, _ => false

/-- Executable adjacent-pair chain predicate (used so that concrete
instances can be settled by evaluation). -/
def chainB {α : Type} (R : α → α → Bool) : List α → Bool
  | [] => true
  | [_] => true
  | a :: b :: l => R a b && chainB R (b :: l)

/-! ## Lemmas about `pySplit` and `pyStrip` -/

theorem pySplit_nil : pySplit [] = [] := rfl

theorem pySplit_one (c : Char) :
    pySplit [c] = if isSpc c then [] else [[c]] := rfl

theorem pySplit_cons_cons (c c2 : Char) (cs : List Char) :
    pySplit (c :: c2 :: cs) =
      if isSpc c then pySplit (c2 :: cs)
      else if isSpc c2 then [c] :: pySplit (c2 :: cs)
      else
        match pySplit (c2 :: cs) with
        | [] => [[c]]
        | w :: ws => (c :: w) :: ws := rfl

/-- A leading whitespace character is discarded by `split`. -/
theorem pySplit_spc_cons {c : Char} (h : isSpc c = true) (s : List Char) :
    pySplit (c :: s) = pySplit s := by
  cases s with
  | nil => simp [pySplit_one, pySplit_nil, h]
  | cons c2 cs => simp [pySplit_cons_cons, h]

/-- `split` of a string with a non-whitespace head is non-empty. -/
theorem pySplit_ne_nil {c : Char} (h : isSpc c = false) (s : List Char) :
    pySplit (c :: s) ≠ [] := by
  cases s with
  | nil => simp [pySplit_one, h]
  | cons c2 cs =>
    rw [pySplit_cons_cons]
    simp only [h]
    by_cases h2 : isSpc c2
    · simp [h2]
    · simp only [h2]
      cases hs : pySplit (c2 :: cs) with
      | nil => simp
      | cons w ws => simp

/-- Key algebraic fact: splitting across an explicit whitespace
separator concatenates the word lists.  This is what makes
`current += " " + seg["text"]` append exactly the segment's words. -/
theorem pySplit_append_spc {d : Char} (hd : isSpc d = true) :
    ∀ a b : List Char, pySplit (a ++ d :: b) = pySplit a ++ pySplit b := by
  intro a
  induction a with
  | nil =>
    intro b
    simp [pySplit_spc_cons hd, pySplit_nil]
  | cons c cs ih =>
    intro b
    cases cs with
    | nil =>
      by_cases hc : isSpc c
      · simp only [List.cons_append, List.nil_append]
        rw [pySplit_spc_cons hc, pySplit_spc_cons hd, pySplit_one]
        simp [hc]
      · simp only [List.cons_append, List.nil_append]
        rw [pySplit_cons_cons]
        simp only [hc, Bool.false_eq_true, if_false, hd, if_true]
        rw [pySplit_spc_cons hd, pySplit_one]
        simp [hc]
    | cons c2 cs2 =>
      by_cases hc : isSpc c
      · simp only [List.cons_append]
        rw [pySplit_spc_cons hc, pySplit_spc_cons hc]
        exact ih b
      · by_cases h2 : isSpc c2
        · simp only [List.cons_append]
          rw [pySplit_cons_cons]
          simp only [hc, Bool.false_eq_true, if_false, h2, if_true]
          rw [pySplit_cons_cons]
          simp only [hc, Bool.false_eq_true, if_false, h2, if_true]
          have := ih b
          simp only [List.cons_append] at this
          rw [this]
          simp
        · simp only [List.cons_append]
          rw [pySplit_cons_cons]
          simp only [hc, Bool.false_eq_true, if_false, h2]
          rw [pySplit_cons_cons]
          simp only [hc, Bool.false_eq_true, if_false, h2]
          have hne := pySplit_ne_nil (by simpa using h2) cs2
          have hih := ih b
          simp only [List.cons_append] at hih
          rw [hih]
          cases hs : pySplit (c2 :: cs2) with
          | nil => exact absurd hs hne
          | cons w ws => simp

/-- An all-whitespace string splits to no words. -/
theorem pySplit_all_spc : ∀ {l : List Char},
    (∀ c ∈ l, isSpc c = true) → pySplit l = [] := by
  intro l
  induction l with
  | nil => intro _; rfl
  | cons c cs ih =>
    intro h
    rw [pySplit_spc_cons (h c (by simp))]
    exact ih fun x hx => h x (by simp [hx])

/-- Trailing whitespace does not change `split`. -/
theorem pySplit_append_all_spc {l post : List Char}
    (h : ∀ c ∈ post, isSpc c = true) : pySplit (l ++ post) = pySplit l := by
  cases post with
  | nil => simp
  | cons d post2 =>
    rw [pySplit_append_spc (h d (by simp)) l post2]
    have hpost : pySplit post2 = [] :=
      pySplit_all_spc fun x hx => h x (List.mem_cons_of_mem d hx)
    rw [hpost]
    simp

/-- Leading whitespace does not change `split`. -/
theorem pySplit_all_spc_append {pre l : List Char}
    (h : ∀ c ∈ pre, isSpc c = true) : pySplit (pre ++ l) = pySplit l := by
  induction pre with
  | nil => simp
  | cons d pre2 ih =>
    simp only [List.cons_append]
    rw [pySplit_spc_cons (h d (by simp))]
    exact ih fun x hx => h x (by simp [hx])

/-- `strip` does not change the word list produced by `split`. -/
theorem pySplit_pyStrip (s : List Char) : pySplit (pyStrip s) = pySplit s := by
  unfold pyStrip
  set t := s.dropWhile isSpc with ht
  have h1 : pySplit t = pySplit s := by
    rw [ht]
    conv_rhs => rw [← List.takeWhile_append_dropWhile (p := isSpc) (l := s)]
    rw [pySplit_all_spc_append fun x hx => List.mem_takeWhile_imp hx]
  have h2 : t = (t.reverse.dropWhile isSpc).reverse ++
      (t.reverse.takeWhile isSpc).reverse := by
    conv_lhs => rw [← List.reverse_reverse t]
    rw [← List.reverse_append, List.takeWhile_append_dropWhile]
  rw [← h1]
  conv_rhs => rw [h2]
  rw [pySplit_append_all_spc]
  intro c hc
  rw [List.mem_reverse] at hc
  exact List.mem_takeWhile_imp hc

/-- `strip` is idempotent (helper: double `dropWhile`). -/
theorem dropWhile_dropWhile (p : Char → Bool) (l : List Char) :
    (l.dropWhile p).dropWhile p = l.dropWhile p := by
  induction l with
  | nil => rfl
  | cons c cs ih =>
    by_cases h : p c
    · simp [List.dropWhile_cons, h, ih]
    · simp [List.dropWhile_cons, h]

/-- The last element of `dropWhile p l` is the last element of `l`
whenever `dropWhile p l` is non-empty. -/
theorem getLast?_dropWhile (p : Char → Bool) (l : List Char)
    (h : l.dropWhile p ≠ []) : (l.dropWhile p).getLast? = l.getLast? := by
  induction l with
  | nil => simp at h
  | cons c cs ih =>
    by_cases hc : p c
    · rw [List.dropWhile_cons_of_pos hc] at h ⊢
      have hcs : cs ≠ [] := by
        intro he
        rw [he] at h
        simp at h
      rw [ih h]
      cases cs with
      | nil => exact absurd rfl hcs
      | cons b bs => rw [List.getLast?_cons_cons]
    · rw [List.dropWhile_cons_of_neg hc]

/-- The head of a non-empty `dropWhile p l` fails `p`. -/
theorem dropWhile_head_false (p : Char → Bool) :
    ∀ (l : List Char) {c : Char} {cs : List Char},
      l.dropWhile p = c :: cs → p c = false := by
  intro l
  induction l with
  | nil => intro c cs h; simp at h
  | cons a as ih =>
    intro c cs h
    by_cases ha : p a
    · rw [List.dropWhile_cons_of_pos ha] at h
      exact ih h
    · rw [List.dropWhile_cons_of_neg ha] at h
      cases h
      simpa using ha

/-- `dropWhile` is the identity on a list whose head fails `p`. -/
theorem dropWhile_of_head_false (p : Char → Bool) {l : List Char} {c : Char}
    (hh : l.head? = some c) (hc : p c = false) : l.dropWhile p = l := by
  cases l with
  | nil => simp at hh
  | cons a as =>
    simp only [List.head?_cons, Option.some.injEq] at hh
    subst hh
    exact List.dropWhile_cons_of_neg (by simp [hc])

/-- `strip` is idempotent. -/
theorem pyStrip_idem (s : List Char) : pyStrip (pyStrip s) = pyStrip s := by
  show pyStrip (((s.dropWhile isSpc).reverse.dropWhile isSpc).reverse) = _
  set u := (s.dropWhile isSpc).reverse with hu
  set r := (u.dropWhile isSpc).reverse with hr
  have hstep1 : r.dropWhile isSpc = r := by
    cases hne : u.dropWhile isSpc with
    | nil => simp [hr, hne]
    | cons c cs =>
      have hhead : r.head? = (u.dropWhile isSpc).getLast? := by
        rw [hr, List.head?_reverse]
      have hlast : (u.dropWhile isSpc).getLast? = u.getLast? :=
        getLast?_dropWhile isSpc u (by simp [hne])
      have hu2 : u.getLast? = (s.dropWhile isSpc).head? := by
        rw [hu, List.getLast?_reverse]
      cases hh : (s.dropWhile isSpc).head? with
      | none =>
        rw [List.head?_eq_none_iff] at hh
        rw [hh] at hu
        simp [hu] at hne
      | some c0 =>
        have hc0 : isSpc c0 = false := by
          cases hd : s.dropWhile isSpc with
          | nil => rw [hd] at hh; simp at hh
          | cons d ds =>
            rw [hd] at hh
            simp only [List.head?_cons, Option.some.injEq] at hh
            subst hh
            exact dropWhile_head_false isSpc s hd
        exact dropWhile_of_head_false isSpc
          (by rw [hhead, hlast, hu2, hh]) hc0
  show ((r.dropWhile isSpc).reverse.dropWhile isSpc).reverse = r
  rw [hstep1, hr, List.reverse_reverse, dropWhile_dropWhile]

/-- Stripping a string that starts with a space strips its tail. -/
theorem pyStrip_spc_cons (s : List Char) :
    pyStrip (spaceChar :: s) = pyStrip s := by
  unfold pyStrip
  rw [List.dropWhile_cons_of_pos (by decide)]

/-- `strip` of the empty string. -/
theorem pyStrip_nil : pyStrip [] = [] := rfl

/-- A string whose `split` is non-empty has a non-empty `strip`. -/
theorem pyStrip_ne_nil_of_words {s : List Char} (h : pySplit s ≠ []) :
    pyStrip s ≠ [] := by
  intro he
  have := pySplit_pyStrip s
  rw [he, pySplit_nil] at this
  exact h this.symm

/-! ## Basic loop and chain lemmas -/

theorem chunkLoop_nil (M : ℕ) (st : ChunkState) : chunkLoop M st [] = st := rfl

theorem chunkLoop_cons (M : ℕ) (st : ChunkState) (seg : Segment)
    (rest : List Segment) :
    chunkLoop M st (seg :: rest) = chunkLoop M (chunkStep M st seg) rest := rfl

/-- The merging branch of `chunkStep`. -/
theorem chunkStep_le {M : ℕ} {st : ChunkState} {seg : Segment}
    (h : (pySplit st.current).length + (pySplit seg.text).length ≤ M) :
    chunkStep M st seg =
      ⟨st.chunks, st.current ++ spaceChar :: seg.text,
        if st.start.isNone then seg.start else st.start, seg.«end»⟩ := by
  simp [chunkStep, h]

/-- The flushing branch of `chunkStep`. -/
theorem chunkStep_gt {M : ℕ} {st : ChunkState} {seg : Segment}
    (h : ¬ (pySplit st.current).length + (pySplit seg.text).length ≤ M) :
    chunkStep M st seg =
      ⟨st.chunks ++ [⟨if st.start.isNone then seg.start else st.start,
          st.«end», pyStrip st.current⟩],
        seg.text, seg.start, seg.«end»⟩ := by
  simp [chunkStep, h]

theorem chainB_iff_chain' {α : Type} (R : α → α → Bool) :
    ∀ l : List α, chainB R l = true ↔ List.Chain' (fun a b => R a b = true) l
  | [] => by simp [chainB]
  | [a] => by simp [chainB]
  | a :: b :: l => by
    rw [List.chain'_cons]
    constructor
    · intro h
      simp only [chainB, Bool.and_eq_true] at h
      exact ⟨h.1, (chainB_iff_chain' R (b :: l)).1 h.2⟩
    · intro h
      simp only [chainB, Bool.and_eq_true]
      exact ⟨h.1, (chainB_iff_chain' R (b :: l)).2 h.2⟩

/-- The second components of the self-shifted zip recover the tail. -/
theorem zip_snd_adjacent {α : Type} :
    ∀ (rest : List α) (c : α), ((c :: rest).zip rest).map Prod.snd = rest := by
  intro rest
  induction rest with
  | nil => intro c; rfl
  | cons r rs ih =>
    intro c
    show ((c, r) :: ((r :: rs).zip rs)).map Prod.snd = r :: rs
    simp only [List.map_cons]
    rw [ih r]

/-- Invariant of the chapter loop: the fold keeps the chapter list
non-empty, keeps every chapter non-empty, and appends exactly the
second component of each processed pair to the concatenation. -/
theorem chapterFold_inv {V : Type} (encode : List Char → V)
    (cosSim : V → V → ℚ) :
    ∀ (pairs : List (Chunk × Chunk)) (chs : List (List Chunk)),
      chs ≠ [] → (∀ ch ∈ chs, ch ≠ []) →
      (pairs.foldl (chapterStep encode cosSim) chs ≠ [] ∧
       (∀ ch ∈ pairs.foldl (chapterStep encode cosSim) chs, ch ≠ []) ∧
       (pairs.foldl (chapterStep encode cosSim) chs).flatten =
         chs.flatten ++ pairs.map Prod.snd) := by
  intro pairs
  induction pairs with
  | nil =>
    intro chs h1 h2
    exact ⟨h1, h2, by simp⟩
  | cons pr prs ih =>
    intro chs h1 h2
    have hstep : chapterStep encode cosSim chs pr ≠ [] ∧
        (∀ ch ∈ chapterStep encode cosSim chs pr, ch ≠ []) ∧
        (chapterStep encode cosSim chs pr).flatten = chs.flatten ++ [pr.2] := by
      unfold chapterStep
      by_cases hsim : cosSim (encode pr.1.text) (encode pr.2.text) < 13/20
      · simp only [hsim, if_true]
        refine ⟨by simp, ?_, by simp⟩
        intro ch hch
        rcases List.mem_append.1 hch with h | h
        · exact h2 ch h
        · simp only [List.mem_singleton] at h
          subst h
          simp
      · simp only [hsim, if_false]
        rcases List.eq_nil_or_concat chs with rfl | ⟨L, last, rfl⟩
        · exact absurd rfl h1
        · simp only [List.concat_eq_append] at h1 h2 ⊢
          rw [List.dropLast_concat, List.getLastD_concat]
          refine ⟨by simp, ?_, ?_⟩
          · intro ch hch
            rcases List.mem_append.1 hch with h | h
            · exact h2 ch (List.mem_append.2 (Or.inl h))
            · simp only [List.mem_singleton] at h
              subst h
              simp
          · simp
    have := ih (chapterStep encode cosSim chs pr) hstep.1 hstep.2.1
    refine ⟨this.1, this.2.1, ?_⟩
    simp only [List.foldl_cons]
    rw [this.2.2, hstep.2.2]
    simp

/-! ## Claims -/

/-- Claim C1 (code bug evaluation).  The claim states that every chunk
produced by `chunk_segments` has non-empty text because an empty
accumulator always absorbs the current segment.  The code has no such
empty-accumulator exception: when the very first segment alone exceeds
`max_words`, the `else` branch flushes the empty accumulator, emitting
the chunk `(start, None, "")` — empty text and an unset end time.  This
theorem evaluates `chunk_segments` at that failing input. -/
theorem claim_C1_oversized_first_segment_emits_empty_chunk :
    chunk_segments [⟨"a b c d e".toList, some 0, some 1⟩] 4 =
      [⟨some 0, none, []⟩, ⟨some 0, some 1, "a b c d e".toList⟩] := by
  decide

/-- Claim C2.  On segments `[("hello world", 0, 1), ("foo bar baz", 1, 2)]`
with `max_words = 4`, `chunk_segments` returns exactly the two chunks
`(0, 1, "hello world")` and `(1, 2, "foo bar baz")`. -/
theorem claim_C2_two_segment_scenario :
    chunk_segments
      [⟨"hello world".toList, some 0, some 1⟩,
       ⟨"foo bar baz".toList, some 1, some 2⟩] 4 =
      [⟨some 0, some 1, "hello world".toList⟩,
       ⟨some 1, some 2, "foo bar baz".toList⟩] := by
  decide

/-- Claim C3.  For every non-empty chunk sequence, `chapter_detection`
succeeds and returns chapters (all non-empty) whose concatenation is
exactly the input sequence, in order. -/
theorem claim_C3_chapters_partition {V : Type} (encode : List Char → V)
    (cosSim : V → V → ℚ) (chunks : List Chunk) (h : chunks ≠ []) :
    ∃ chs, chapter_detection encode cosSim chunks = some chs ∧
      chs.flatten = chunks ∧ ∀ ch ∈ chs, ch ≠ [] := by
  cases chunks with
  | nil => exact absurd rfl h
  | cons c rest =>
    refine ⟨((c :: rest).zip rest).foldl (chapterStep encode cosSim) [[c]],
      rfl, ?_, ?_⟩
    · have := chapterFold_inv encode cosSim ((c :: rest).zip rest) [[c]]
        (by simp) (by simp)
      rw [this.2.2, zip_snd_adjacent]
      simp
    · exact (chapterFold_inv encode cosSim ((c :: rest).zip rest) [[c]]
        (by simp) (by simp)).2.1

/-- Witness for C3 at a concrete input. -/
theorem claim_C3_partition_witness :
    ∃ chs,
      chapter_detection (fun _ => ()) (fun _ _ => 1)
        [⟨some 0, some 1, "a".toList⟩, ⟨some 1, some 2, "b".toList⟩] =
        some chs ∧
      chs.flatten = [⟨some 0, some 1, "a".toList⟩, ⟨some 1, some 2, "b".toList⟩] ∧
      ∀ ch ∈ chs, ch ≠ [] :=
  claim_C3_chapters_partition (fun _ => ()) (fun _ _ => 1)
    [⟨some 0, some 1, "a".toList⟩, ⟨some 1, some 2, "b".toList⟩] (by simp)

/-- Claim C4.  On an empty chunk sequence the chapter detector fails and
returns no chapter partition (the code hits `chunks[0]` on an empty
list; the spec names this failure `InvalidInput`). -/
theorem claim_C4_empty_chunks_fails {V : Type} (encode : List Char → V)
    (cosSim : V → V → ℚ) :
    chapter_detection encode cosSim [] = none := rfl

/-- Claim C6.  The chapter boundary test is a strict `sim < 0.65`: a
similarity exactly equal to the threshold keeps the second chunk in the
current chapter, a similarity strictly below it starts a new chapter. -/
theorem claim_C6_threshold_boundary {V : Type} (encode : List Char → V)
    (cosSim : V → V → ℚ) (a b : Chunk) :
    (cosSim (encode a.text) (encode b.text) = 13/20 →
      chapter_detection encode cosSim [a, b] = some [[a, b]]) ∧
    (cosSim (encode a.text) (encode b.text) < 13/20 →
      chapter_detection encode cosSim [a, b] = some [[a], [b]]) := by
  constructor
  · intro h
    show some (List.foldl (chapterStep encode cosSim) [[a]] [(a, b)]) = _
    simp [chapterStep, h]
  · intro h
    show some (List.foldl (chapterStep encode cosSim) [[a]] [(a, b)]) = _
    simp [chapterStep, h]

/-- Witness for C6: both branches instantiated with concrete similarity
functions and chunks. -/
theorem claim_C6_threshold_boundary_witness :
    chapter_detection (fun _ => ()) (fun _ _ => 13/20)
      [⟨some 0, some 1, "a".toList⟩, ⟨some 1, some 2, "b".toList⟩] =
      some [[⟨some 0, some 1, "a".toList⟩, ⟨some 1, some 2, "b".toList⟩]] ∧
    chapter_detection (fun _ => ()) (fun _ _ => 1/2)
      [⟨some 0, some 1, "a".toList⟩, ⟨some 1, some 2, "b".toList⟩] =
      some [[⟨some 0, some 1, "a".toList⟩], [⟨some 1, some 2, "b".toList⟩]] :=
  ⟨(claim_C6_threshold_boundary (fun _ => ()) (fun _ _ => 13/20)
      ⟨some 0, some 1, "a".toList⟩ ⟨some 1, some 2, "b".toList⟩).1 rfl,
   (claim_C6_threshold_boundary (fun _ => ()) (fun _ _ => 1/2)
      ⟨some 0, some 1, "a".toList⟩ ⟨some 1, some 2, "b".toList⟩).2
      (by norm_num)⟩

/-- Claim C9.  A single-chunk input yields exactly one chapter holding
exactly that chunk, and the loop performs zero similarity comparisons
(the result does not depend on `encode` or `cosSim` at all). -/
theorem claim_C9_single_chunk {V : Type} (encode : List Char → V)
    (cosSim : V → V → ℚ) (c : Chunk) :
    chapter_detection encode cosSim [c] = some [[c]] ∧
      simComparisons [c] = 0 :=
  ⟨rfl, rfl⟩

/-- `spaceChar` is whitespace. -/
theorem isSpc_spaceChar : isSpc spaceChar = true := by decide

/-- Loop invariant for word-stream preservation: the words already
flushed into chunks plus the words of the accumulator grow by exactly
the words of each processed segment. -/
theorem chunkLoop_words (M : ℕ) :
    ∀ (rest : List Segment) (st : ChunkState),
      ((chunkLoop M st rest).chunks.map fun c => pySplit c.text).flatten ++
          pySplit (chunkLoop M st rest).current =
        (st.chunks.map fun c => pySplit c.text).flatten ++
          pySplit st.current ++ (rest.map fun s => pySplit s.text).flatten := by
  intro rest
  induction rest with
  | nil =>
    intro st
    simp [chunkLoop_nil]
  | cons seg rest2 ih =>
    intro st
    rw [chunkLoop_cons, ih]
    by_cases h : (pySplit st.current).length + (pySplit seg.text).length ≤ M
    · rw [chunkStep_le h]
      simp only [List.map_cons, List.flatten_cons]
      rw [pySplit_append_spc isSpc_spaceChar]
      simp [List.append_assoc]
    · rw [chunkStep_gt h]
      simp only [List.map_append, List.map_cons, List.map_nil,
        List.flatten_append, List.flatten_cons, List.flatten_nil]
      rw [pySplit_pyStrip]
      simp [List.append_assoc]

/-- Claim C10.  `chunk_segments` preserves the word stream: the
whitespace-split words of the output chunks, concatenated in order,
are exactly the whitespace-split words of the input segments. -/
theorem claim_C10_word_stream_preserved (segs : List Segment) (M : ℕ) :
    ((chunk_segments segs M).map fun c => pySplit c.text).flatten =
      (segs.map fun s => pySplit s.text).flatten := by
  unfold chunk_segments finalizeChunks
  have h := chunkLoop_words M segs ⟨[], [], none, none⟩
  simp only [List.map_nil, List.flatten_nil, List.nil_append, pySplit_nil,
    List.append_nil] at h
  by_cases hc : (chunkLoop M ⟨[], [], none, none⟩ segs).current = []
  · simp only [hc, if_true]
    rw [hc, pySplit_nil, List.append_nil] at h
    exact h
  · simp only [hc, if_false]
    simp only [List.map_append, List.map_cons, List.map_nil,
      List.flatten_append, List.flatten_cons, List.flatten_nil]
    rw [pySplit_pyStrip]
    simpa using h

/-- Loop invariant for the word-count bound: every flushed chunk either
respects the bound or carries (the stripped text of) exactly one input
segment, and the accumulator likewise is either within the bound or the
raw text of one input segment. -/
theorem chunkLoop_bound (M : ℕ) (segs : List Segment) :
    ∀ (rest : List Segment) (st : ChunkState),
      (∀ s ∈ rest, s ∈ segs) →
      (∀ c ∈ st.chunks,
        (pySplit c.text).length ≤ M ∨ ∃ s ∈ segs, c.text = pyStrip s.text) →
      ((pySplit st.current).length ≤ M ∨ ∃ s ∈ segs, st.current = s.text) →
      (∀ c ∈ (chunkLoop M st rest).chunks,
        (pySplit c.text).length ≤ M ∨ ∃ s ∈ segs, c.text = pyStrip s.text) ∧
      ((pySplit (chunkLoop M st rest).current).length ≤ M ∨
        ∃ s ∈ segs, (chunkLoop M st rest).current = s.text) := by
  intro rest
  induction rest with
  | nil =>
    intro st _ h1 h2
    exact ⟨h1, h2⟩
  | cons seg rest2 ih =>
    intro st hsub h1 h2
    rw [chunkLoop_cons]
    by_cases h : (pySplit st.current).length + (pySplit seg.text).length ≤ M
    · rw [chunkStep_le h]
      refine ih _ (fun s hs => hsub s (List.mem_cons_of_mem seg hs)) h1 ?_
      left
      rw [pySplit_append_spc isSpc_spaceChar, List.length_append]
      exact h
    · rw [chunkStep_gt h]
      refine ih _ (fun s hs => hsub s (List.mem_cons_of_mem seg hs)) ?_ ?_
      · intro c hc
        rcases List.mem_append.1 hc with hmem | hmem
        · exact h1 c hmem
        · simp only [List.mem_singleton] at hmem
          subst hmem
          rcases h2 with hle | ⟨s, hs, he⟩
          · left
            show (pySplit (pyStrip st.current)).length ≤ M
            rw [pySplit_pyStrip]
            exact hle
          · right
            exact ⟨s, hs, by rw [he]⟩
      · right
        exact ⟨seg, hsub seg (by simp), rfl⟩

/-- Claim C5.  Every chunk produced by `chunk_segments` either has a
word count within `max_words`, or its text is the stripped text of a
single (oversized) input segment — the single-oversized-segment
exception. -/
theorem claim_C5_word_count_bound (segs : List Segment) (M : ℕ) (c : Chunk)
    (hc : c ∈ chunk_segments segs M) :
    (pySplit c.text).length ≤ M ∨ ∃ s ∈ segs, c.text = pyStrip s.text := by
  unfold chunk_segments finalizeChunks at hc
  have hrun := chunkLoop_bound M segs segs ⟨[], [], none, none⟩
    (fun s hs => hs) (by simp) (by simp [pySplit_nil])
  by_cases hcur : (chunkLoop M ⟨[], [], none, none⟩ segs).current = []
  · rw [if_pos hcur] at hc
    exact hrun.1 c hc
  · rw [if_neg hcur] at hc
    rcases List.mem_append.1 hc with hmem | hmem
    · exact hrun.1 c hmem
    · simp only [List.mem_singleton] at hmem
      subst hmem
      rcases hrun.2 with hle | ⟨s, hs, he⟩
      · left
        show (pySplit (pyStrip _)).length ≤ M
        rw [pySplit_pyStrip]
        exact hle
      · right
        exact ⟨s, hs, by rw [he]⟩

/-- Witness for C5: the oversized single segment becomes its own chunk,
whose text is that segment's (stripped) text. -/
theorem claim_C5_word_count_bound_witness :
    (pySplit (Chunk.text ⟨some 0, some 1, "a b c d e".toList⟩)).length ≤ 4 ∨
      ∃ s ∈ [(⟨"a b c d e".toList, some 0, some 1⟩ : Segment)],
        Chunk.text ⟨some 0, some 1, "a b c d e".toList⟩ = pyStrip s.text :=
  claim_C5_word_count_bound [⟨"a b c d e".toList, some 0, some 1⟩] 4
    ⟨some 0, some 1, "a b c d e".toList⟩ (by decide)

/-- A successful `leOpt` comparison forces both times to be present. -/
theorem leOpt_ne_none {x y : Option ℚ} (h : leOpt x y = true) :
    x ≠ none ∧ y ≠ none := by
  cases x <;> cases y <;> simp [leOpt] at h ⊢

/-- Loop invariant for time monotonicity: provided the remaining
segments are time-ordered and the accumulator's `end` precedes the next
segment's `start`, the flushed chunks stay time-ordered through the
final flush.  The `getLast?` clause relates the last flushed chunk to
the currently open chunk's `start`. -/
theorem chunkLoop_chain (M : ℕ) :
    ∀ (rest : List Segment) (st : ChunkState),
      List.Chain' (fun a b => leOpt a.«end» b.start = true) rest →
      (∀ s1 ∈ rest.head?, leOpt st.«end» s1.start = true) →
      List.Chain' (fun c c' => leOpt c.«end» c'.start = true) st.chunks →
      (∀ c ∈ st.chunks.getLast?,
        st.start ≠ none ∧ leOpt c.«end» st.start = true) →
      List.Chain' (fun c c' => leOpt c.«end» c'.start = true)
        (finalizeChunks (chunkLoop M st rest)) := by
  intro rest
  induction rest with
  | nil =>
    intro st _ _ hchain hlast
    rw [chunkLoop_nil]
    unfold finalizeChunks
    by_cases hcur : st.current = []
    · rw [if_pos hcur]
      exact hchain
    · rw [if_neg hcur]
      rw [List.chain'_append]
      refine ⟨hchain, List.chain'_singleton _, ?_⟩
      intro x hx y hy
      simp only [List.head?_cons, Option.mem_def, Option.some.injEq] at hy
      subst hy
      exact (hlast x hx).2
  | cons seg rest2 ih =>
    intro st hord hlink hchain hlast
    rw [chunkLoop_cons]
    have hord2 : List.Chain' (fun a b => leOpt a.«end» b.start = true) rest2 :=
      hord.tail
    have hlink2 : ∀ s1 ∈ rest2.head?, leOpt seg.«end» s1.start = true :=
      (List.chain'_cons'.1 hord).1
    by_cases h : (pySplit st.current).length + (pySplit seg.text).length ≤ M
    · rw [chunkStep_le h]
      refine ih _ hord2 hlink2 hchain ?_
      intro c hc
      have := hlast c hc
      have hne : st.start.isNone = false := by
        cases hs : st.start with
        | none => exact absurd hs this.1
        | some q => rfl
      simpa [hne] using this
    · rw [chunkStep_gt h]
      have hseg : leOpt st.«end» seg.start = true := hlink seg (by simp)
      refine ih _ hord2 hlink2 ?_ ?_
      · show List.Chain' _ (st.chunks ++ [_])
        rw [List.chain'_append]
        refine ⟨hchain, List.chain'_singleton _, ?_⟩
        intro x hx y hy
        simp only [List.head?_cons, Option.mem_def, Option.some.injEq] at hy
        subst hy
        show leOpt x.«end» (if st.start.isNone then seg.start else st.start) =
          true
        have := hlast x hx
        have hne : st.start.isNone = false := by
          cases hs : st.start with
          | none => exact absurd hs this.1
          | some q => rfl
        simpa [hne] using this.2
      · intro c hc
        simp only [List.getLast?_concat, Option.mem_def, Option.some.injEq]
          at hc
        subst hc
        exact ⟨(leOpt_ne_none hseg).2, hseg⟩

/-- Counterexample to claim C7 as stated.  The input segments are
time-ordered (`end <= start` holds for the adjacent pair, all times
defined), yet the output chunk sequence violates `chunk[i].end <=
chunk[i+1].start`: the first segment alone exceeds `max_words = 1`, so
the degenerate chunk `(0.0, None, "")` is emitted first and its `end`
is undefined (`None <= 0.0` would itself raise in Python). -/
theorem claim_C7_counterexample :
    chainB (fun a b => leOpt a.«end» b.start)
      ([⟨"a b".toList, some 0, some 1⟩, ⟨"c".toList, some 1, some 2⟩] :
        List Segment) = true ∧
    chainB (fun c c' => leOpt c.«end» c'.start)
      (chunk_segments
        [⟨"a b".toList, some 0, some 1⟩, ⟨"c".toList, some 1, some 2⟩] 1) =
      false := by
  decide

/-- Claim C7, amended.  If additionally the first segment's word count
is within `max_words` (ruling out the degenerate empty chunk of C1),
time-ordered segments yield time-ordered chunks: `chunk[i].end <=
chunk[i+1].start`, both times defined, for every adjacent pair. -/
theorem claim_C7_time_monotonicity_amended (segs : List Segment) (M : ℕ)
    (hord : chainB (fun a b => leOpt a.«end» b.start) segs = true)
    (hfirst : ∀ s0 ∈ segs.head?, (pySplit s0.text).length ≤ M) :
    chainB (fun c c' => leOpt c.«end» c'.start)
      (chunk_segments segs M) = true := by
  rw [chainB_iff_chain'] at hord ⊢
  cases segs with
  | nil =>
    have hnil : chunk_segments [] M = [] := rfl
    rw [hnil]
    exact List.chain'_nil
  | cons s0 rest =>
    unfold chunk_segments
    rw [chunkLoop_cons]
    have hw : (pySplit s0.text).length ≤ M := hfirst s0 (by simp)
    have hcond :
        (pySplit (ChunkState.current ⟨[], [], none, none⟩)).length +
          (pySplit s0.text).length ≤ M := by
      simpa [pySplit_nil] using hw
    rw [chunkStep_le hcond]
    refine chunkLoop_chain M rest _ hord.tail ?_ (by simp) (by simp)
    intro s1 hs1
    exact (List.chain'_cons'.1 hord).1 s1 hs1

/-- Witness for C7 at a concrete time-ordered input whose first segment
fits within the bound. -/
theorem claim_C7_time_monotonicity_witness :
    chainB (fun c c' => leOpt c.«end» c'.start)
      (chunk_segments
        [⟨"hello world".toList, some 0, some 1⟩,
         ⟨"foo bar baz".toList, some 1, some 2⟩] 4) = true :=
  claim_C7_time_monotonicity_amended
    [⟨"hello world".toList, some 0, some 1⟩,
     ⟨"foo bar baz".toList, some 1, some 2⟩] 4 (by decide)
    (fun s0 hs0 => by
      simp only [List.head?_cons, Option.mem_def, Option.some.injEq] at hs0
      subst hs0
      decide)

/-- Forward invariant of `chunk_segments` used for re-chunking
stability, under the assumptions that every segment has a defined
`start` and at least one word: flushed chunk texts are stripped, chunk
starts are defined, adjacent flushed chunks jointly exceed the bound
(so re-chunking can never merge them), the last flushed chunk together
with the accumulator exceeds the bound, the first flushed chunk is
within the bound, an empty chunk list means the accumulator is within
the bound, and once anything has been processed the accumulator has at
least one word and a defined `start`. -/
theorem chunkLoop_inv8 (M : ℕ) :
    ∀ (rest : List Segment) (st : ChunkState),
      (∀ s ∈ rest, s.start ≠ none) →
      (∀ s ∈ rest, pySplit s.text ≠ []) →
      (∀ c ∈ st.chunks, pyStrip c.text = c.text) →
      (∀ c ∈ st.chunks, c.start ≠ none) →
      List.Chain' (fun c c' =>
        M < (pySplit c.text).length + (pySplit c'.text).length) st.chunks →
      (∀ c ∈ st.chunks.getLast?,
        M < (pySplit c.text).length + (pySplit st.current).length) →
      (∀ c ∈ st.chunks.head?, (pySplit c.text).length ≤ M) →
      (st.chunks = [] → (pySplit st.current).length ≤ M) →
      (st.chunks ≠ [] ∨ st.current ≠ [] →
        pySplit st.current ≠ [] ∧ st.start ≠ none) →
      ((∀ c ∈ (chunkLoop M st rest).chunks, pyStrip c.text = c.text) ∧
       (∀ c ∈ (chunkLoop M st rest).chunks, c.start ≠ none) ∧
       List.Chain' (fun c c' =>
         M < (pySplit c.text).length + (pySplit c'.text).length)
         (chunkLoop M st rest).chunks ∧
       (∀ c ∈ (chunkLoop M st rest).chunks.getLast?,
         M < (pySplit c.text).length +
           (pySplit (chunkLoop M st rest).current).length) ∧
       (∀ c ∈ (chunkLoop M st rest).chunks.head?,
         (pySplit c.text).length ≤ M) ∧
       ((chunkLoop M st rest).chunks = [] →
         (pySplit (chunkLoop M st rest).current).length ≤ M) ∧
       ((chunkLoop M st rest).chunks ≠ [] ∨
           (chunkLoop M st rest).current ≠ [] →
         pySplit (chunkLoop M st rest).current ≠ [] ∧
           (chunkLoop M st rest).start ≠ none)) := by
  intro rest
  induction rest with
  | nil =>
    intro st _ _ i1 i2 i3 i4 i5 i6 i7
    exact ⟨i1, i2, i3, i4, i5, i6, i7⟩
  | cons seg rest2 ih =>
    intro st h1 h2 i1 i2 i3 i4 i5 i6 i7
    rw [chunkLoop_cons]
    have h1' : ∀ s ∈ rest2, s.start ≠ none :=
      fun s hs => h1 s (List.mem_cons_of_mem seg hs)
    have h2' : ∀ s ∈ rest2, pySplit s.text ≠ [] :=
      fun s hs => h2 s (List.mem_cons_of_mem seg hs)
    have hsegstart : seg.start ≠ none := h1 seg (by simp)
    have hsegwords : pySplit seg.text ≠ [] := h2 seg (by simp)
    by_cases h : (pySplit st.current).length + (pySplit seg.text).length ≤ M
    · rw [chunkStep_le h]
      refine ih _ h1' h2' i1 i2 i3 ?_ i5 ?_ ?_
      · intro c hc
        have := i4 c hc
        show M < (pySplit c.text).length +
          (pySplit (st.current ++ spaceChar :: seg.text)).length
        rw [pySplit_append_spc isSpc_spaceChar, List.length_append]
        omega
      · intro hnil
        show (pySplit (st.current ++ spaceChar :: seg.text)).length ≤ M
        rw [pySplit_append_spc isSpc_spaceChar, List.length_append]
        exact h
      · intro _
        constructor
        · show pySplit (st.current ++ spaceChar :: seg.text) ≠ []
          rw [pySplit_append_spc isSpc_spaceChar]
          intro he
          exact hsegwords (List.append_eq_nil.1 he).2
        · show (if st.start.isNone then seg.start else st.start) ≠ none
          cases hstart : st.start with
          | none => simpa [hstart] using hsegstart
          | some q => simp [hstart]
    · rw [chunkStep_gt h]
      have hcnew_start :
          (if st.start.isNone then seg.start else st.start) ≠ none := by
        cases hstart : st.start with
        | none => simpa [hstart] using hsegstart
        | some q => simp [hstart]
      refine ih _ h1' h2' ?_ ?_ ?_ ?_ ?_ ?_ ?_
      · intro c hc
        rcases List.mem_append.1 hc with hm | hm
        · exact i1 c hm
        · simp only [List.mem_singleton] at hm
          subst hm
          exact pyStrip_idem st.current
      · intro c hc
        rcases List.mem_append.1 hc with hm | hm
        · exact i2 c hm
        · simp only [List.mem_singleton] at hm
          subst hm
          exact hcnew_start
      · rw [List.chain'_append]
        refine ⟨i3, List.chain'_singleton _, ?_⟩
        intro x hx y hy
        simp only [List.head?_cons, Option.mem_def, Option.some.injEq] at hy
        subst hy
        show M < (pySplit x.text).length + (pySplit (pyStrip st.current)).length
        rw [pySplit_pyStrip]
        exact i4 x hx
      · intro c hc
        simp only [List.getLast?_concat, Option.mem_def, Option.some.injEq]
          at hc
        subst hc
        show M < (pySplit (pyStrip st.current)).length +
          (pySplit seg.text).length
        rw [pySplit_pyStrip]
        omega
      · intro c hc
        cases hch : st.chunks with
        | nil =>
          rw [hch] at hc
          simp only [List.nil_append, List.head?_cons, Option.mem_def,
            Option.some.injEq] at hc
          subst hc
          show (pySplit (pyStrip st.current)).length ≤ M
          rw [pySplit_pyStrip]
          exact i6 hch
        | cons c0 cls =>
          rw [hch] at hc
          simp only [List.cons_append, List.head?_cons, Option.mem_def,
            Option.some.injEq] at hc
          have h5 : (pySplit c0.text).length ≤ M := i5 c0 (by rw [hch]; simp)
          cases hc
          exact h5
      · intro hnil
        exact absurd hnil (by simp)
      · intro _
        exact ⟨hsegwords, hsegstart⟩

/-- Properties of the output of `chunk_segments` (segments with defined
starts and at least one word each): texts are stripped, starts defined,
any two adjacent chunks jointly exceed the bound, the first chunk is
within the bound, and the last chunk has non-empty text. -/
theorem chunk_segments_props (segs : List Segment) (M : ℕ)
    (h1 : ∀ s ∈ segs, s.start ≠ none)
    (h2 : ∀ s ∈ segs, pySplit s.text ≠ []) :
    (∀ c ∈ chunk_segments segs M, pyStrip c.text = c.text) ∧
    (∀ c ∈ chunk_segments segs M, c.start ≠ none) ∧
    List.Chain' (fun c c' =>
      M < (pySplit c.text).length + (pySplit c'.text).length)
      (chunk_segments segs M) ∧
    (∀ c ∈ (chunk_segments segs M).head?, (pySplit c.text).length ≤ M) ∧
    (∀ c ∈ (chunk_segments segs M).getLast?, c.text ≠ []) := by
  have inv := chunkLoop_inv8 M segs ⟨[], [], none, none⟩ h1 h2
    (by simp) (by simp) (by simp) (by simp) (by simp)
    (by intro _; simp [pySplit_nil])
    (by intro hor; rcases hor with hh | hh <;> exact absurd rfl hh)
  obtain ⟨p1, p2, p3, p4, p5, p6, p7⟩ := inv
  unfold chunk_segments finalizeChunks
  set stf := chunkLoop M ⟨[], [], none, none⟩ segs with hstf
  by_cases hcur : stf.current = []
  · have hch : stf.chunks = [] := by
      by_contra hne
      have := (p7 (Or.inl hne)).1
      rw [hcur] at this
      exact this pySplit_nil
    rw [if_pos hcur, hch]
    simp
  · rw [if_neg hcur]
    have h9 := p7 (Or.inr hcur)
    refine ⟨?_, ?_, ?_, ?_, ?_⟩
    · intro c hc
      rcases List.mem_append.1 hc with hm | hm
      · exact p1 c hm
      · simp only [List.mem_singleton] at hm
        subst hm
        exact pyStrip_idem stf.current
    · intro c hc
      rcases List.mem_append.1 hc with hm | hm
      · exact p2 c hm
      · simp only [List.mem_singleton] at hm
        subst hm
        exact h9.2
    · rw [List.chain'_append]
      refine ⟨p3, List.chain'_singleton _, ?_⟩
      intro x hx y hy
      simp only [List.head?_cons, Option.mem_def, Option.some.injEq] at hy
      subst hy
      show M < (pySplit x.text).length + (pySplit (pyStrip stf.current)).length
      rw [pySplit_pyStrip]
      exact p4 x hx
    · intro c hc
      cases hch : stf.chunks with
      | nil =>
        rw [hch] at hc
        simp only [List.nil_append, List.head?_cons, Option.mem_def,
          Option.some.injEq] at hc
        have hb : (pySplit (pyStrip stf.current)).length ≤ M := by
          rw [pySplit_pyStrip]
          exact p6 hch
        cases hc
        exact hb
      | cons c0 cls =>
        rw [hch] at hc
        simp only [List.cons_append, List.head?_cons, Option.mem_def,
          Option.some.injEq] at hc
        have hb : (pySplit c0.text).length ≤ M := p5 c0 (by rw [hch]; simp)
        cases hc
        exact hb
    · intro c hc
      simp only [List.getLast?_concat, Option.mem_def, Option.some.injEq] at hc
      cases hc
      exact pyStrip_ne_nil_of_words h9.1

/-- Core of re-chunking stability: running the chunk loop over former
chunks (as segments) when the accumulator currently holds (a space
variant of) the previous chunk's text, every adjacent pair of former
chunks jointly exceeds the bound, and the last chunk text is non-empty,
flushes each former chunk unchanged. -/
theorem rechunk_go (M : ℕ) :
    ∀ (rest : List Chunk) (prev : Chunk) (acc : List Chunk) (cur : List Char),
      pyStrip cur = prev.text →
      pySplit cur = pySplit prev.text →
      prev.start ≠ none →
      (∀ c ∈ rest, pyStrip c.text = c.text) →
      (∀ c ∈ rest, c.start ≠ none) →
      List.Chain' (fun c c' =>
        M < (pySplit c.text).length + (pySplit c'.text).length)
        (prev :: rest) →
      (∀ c ∈ (prev :: rest).getLast?, c.text ≠ []) →
      finalizeChunks (chunkLoop M ⟨acc, cur, prev.start, prev.«end»⟩
        (rest.map toSegment)) = acc ++ prev :: rest := by
  intro rest
  induction rest with
  | nil =>
    intro prev acc cur hstrip hsplit hstart _ _ _ hlast
    rw [List.map_nil, chunkLoop_nil]
    unfold finalizeChunks
    have hptext : prev.text ≠ [] := hlast prev (by simp)
    have hcur : cur ≠ [] := by
      intro he
      rw [he, pyStrip_nil] at hstrip
      exact hptext hstrip.symm
    rw [if_neg hcur]
    show acc ++ [(⟨prev.start, prev.«end», pyStrip cur⟩ : Chunk)] = _
    rw [hstrip]
  | cons c rest2 ih =>
    intro prev acc cur hstrip hsplit hstart hstrips hstarts hchain hlast
    rw [List.map_cons, chunkLoop_cons]
    have hpair : M < (pySplit prev.text).length + (pySplit c.text).length :=
      (List.chain'_cons'.1 hchain).1 c (by simp)
    have hcond : ¬ (pySplit cur).length +
        (pySplit (toSegment c).text).length ≤ M := by
      show ¬ (pySplit cur).length + (pySplit c.text).length ≤ M
      rw [hsplit]
      omega
    rw [chunkStep_gt hcond]
    have hsn : (ChunkState.start ⟨acc, cur, prev.start, prev.«end»⟩).isNone =
        false := by
      cases hs : prev.start with
      | none => exact absurd hs hstart
      | some q => simp [hs]
    have hflush :
        (⟨if (ChunkState.start ⟨acc, cur, prev.start, prev.«end»⟩).isNone
            then (toSegment c).start
            else ChunkState.start ⟨acc, cur, prev.start, prev.«end»⟩,
          ChunkState.end ⟨acc, cur, prev.start, prev.«end»⟩,
          pyStrip (ChunkState.current ⟨acc, cur, prev.start, prev.«end»⟩)⟩ :
          Chunk) = prev := by
      show (⟨if Option.isNone prev.start then (toSegment c).start
          else prev.start, prev.«end», pyStrip cur⟩ : Chunk) = prev
      rw [hstrip]
      cases hs : prev.start with
      | none => exact absurd hs hstart
      | some q =>
        simp only [hs, Option.isNone_some, Bool.false_eq_true, if_false]
        rw [← hs]
    have hih := ih c (acc ++ [prev]) c.text
      (hstrips c (by simp)) rfl (hstarts c (by simp))
      (fun x hx => hstrips x (List.mem_cons_of_mem c hx))
      (fun x hx => hstarts x (List.mem_cons_of_mem c hx))
      hchain.tail
      (by
        intro x hx
        refine hlast x ?_
        rwa [List.getLast?_cons_cons])
    show finalizeChunks (chunkLoop M
      ⟨ChunkState.chunks ⟨acc, cur, prev.start, prev.«end»⟩ ++ [_],
        (toSegment c).text, (toSegment c).start, (toSegment c).«end»⟩
      (rest2.map toSegment)) = _
    rw [hflush]
    show finalizeChunks (chunkLoop M ⟨acc ++ [prev], c.text, c.start, c.«end»⟩
      (rest2.map toSegment)) = _
    rw [hih]
    simp

/-- Counterexample to claim C8 as stated.  With a whitespace-only third
segment, `chunk_segments` emits a trailing chunk with empty (stripped)
text; on re-chunking, that chunk seeds the accumulator as the literal
empty string, the final `if current:` test fails, and the chunk is
dropped: re-chunking is not idempotent. -/
theorem claim_C8_counterexample :
    chunk_segments
      ((chunk_segments
        [⟨"x".toList, some 0, some 1⟩, ⟨"a b c".toList, some 2, some 3⟩,
         ⟨" ".toList, some 4, some 5⟩] 2).map toSegment) 2 ≠
      chunk_segments
        [⟨"x".toList, some 0, some 1⟩, ⟨"a b c".toList, some 2, some 3⟩,
         ⟨" ".toList, some 4, some 5⟩] 2 := by
  decide

/-- Claim C8, amended.  If every input segment has a defined start time
and at least one whitespace-separated word, then re-running
`chunk_segments` on its own output (each chunk's text and time range
read back as a segment) with the same `max_words` returns the same
chunk sequence. -/
theorem claim_C8_rechunk_stable_amended (segs : List Segment) (M : ℕ)
    (h1 : ∀ s ∈ segs, s.start ≠ none)
    (h2 : ∀ s ∈ segs, pySplit s.text ≠ []) :
    chunk_segments ((chunk_segments segs M).map toSegment) M =
      chunk_segments segs M := by
  obtain ⟨p1, p2, p3, p4, p5⟩ := chunk_segments_props segs M h1 h2
  cases hL : chunk_segments segs M with
  | nil => rfl
  | cons c0 L1 =>
    rw [hL] at p1 p2 p3 p4 p5
    show chunk_segments (toSegment c0 :: L1.map toSegment) M = c0 :: L1
    unfold chunk_segments
    rw [chunkLoop_cons]
    have hw : (pySplit c0.text).length ≤ M := p4 c0 (by simp)
    have hcond :
        (pySplit (ChunkState.current ⟨[], [], none, none⟩)).length +
          (pySplit (toSegment c0).text).length ≤ M := by
      show (pySplit []).length + (pySplit c0.text).length ≤ M
      simpa [pySplit_nil] using hw
    rw [chunkStep_le hcond]
    have hc0start : c0.start ≠ none := p2 c0 (by simp)
    have hc0strip : pyStrip c0.text = c0.text := p1 c0 (by simp)
    have hgo := rechunk_go M L1 c0 []
      (spaceChar :: c0.text)
      (by rw [pyStrip_spc_cons, hc0strip])
      (pySplit_spc_cons isSpc_spaceChar c0.text)
      hc0start
      (fun x hx => p1 x (List.mem_cons_of_mem c0 hx))
      (fun x hx => p2 x (List.mem_cons_of_mem c0 hx))
      p3 p5
    show finalizeChunks (chunkLoop M
      ⟨[], [] ++ spaceChar :: (toSegment c0).text,
        if (ChunkState.start ⟨[], [], none, none⟩).isNone
          then (toSegment c0).start
          else ChunkState.start ⟨[], [], none, none⟩,
        (toSegment c0).«end»⟩ (L1.map toSegment)) = c0 :: L1
    simpa using hgo

/-- Witness for C8 at a concrete input (two well-formed segments). -/
theorem claim_C8_rechunk_stable_witness :
    chunk_segments
      ((chunk_segments
        [⟨"hello world".toList, some 0, some 1⟩,
         ⟨"foo bar baz".toList, some 1, some 2⟩] 4).map toSegment) 4 =
      chunk_segments
        [⟨"hello world".toList, some 0, some 1⟩,
         ⟨"foo bar baz".toList, some 1, some 2⟩] 4 :=
  claim_C8_rechunk_stable_amended
    [⟨"hello world".toList, some 0, some 1⟩,
     ⟨"foo bar baz".toList, some 1, some 2⟩] 4 (by decide) (by decide)
